import Mathlib

/-!
Verification of the text transformation and frequency analytics pipeline of the
nubisary repository (src/src/text_processor.py and src/src/report_generator.py),
as a shallow embedding in Lean.

Conventions of the embedding:
* Python strings are Lean `String`s; character-level work happens on `String.data`.
* Python dicts mapping keys to counts are association lists in insertion order
  (`List (String × Nat)` for `collections.Counter` output, `List (String × ℚ)`
  for the float-valued maps consumed by the analytics functions).
* Fallible code returns `Except PyErr`; `PyErr.valueError` models `ValueError`
  and `PyErr.osError` models the OSError/LookupError family raised by NLTK.
* The NLTK stopword corpus is an external dependency, so
  `generate_word_count_from_text` is parameterised by a lookup
  `stopwordsWords : String → Except PyErr (List String)` modelling
  `nltk.corpus.stopwords.words`; `nltkStopwords` instantiates it with the
  documented behaviour (known language → word list, unknown language → error).
* `\w`, `\d`, `str.lower` etc. are modelled on their ASCII fragment, which
  covers every concrete input appearing in the claims.
-/

deriving instance DecidableEq for Except

namespace Nubisary

/-- Python exception values relevant to the pipeline. -/
inductive PyErr where
  | osError (msg : String)
  | valueError (msg : String)
deriving DecidableEq

/-- Python whitespace (the characters stripped by `str.strip` and matched by `\s`). -/
def isPySpace (c : Char) : Bool :=
  c == ' ' || c == '\t' || c == '\n' || c == '\r' || c == '\x0b' || c == '\x0c'

/-- A `\w` word character (ASCII fragment): letters, digits, underscore. -/
def isWordChar (c : Char) : Bool :=
  c.isAlphanum || c == '_'

/-- Left strip: drop leading Python whitespace. -/
def lstripChars (cs : List Char) : List Char :=
  cs.dropWhile isPySpace

/-- Right strip: drop trailing Python whitespace. -/
def rstripChars (cs : List Char) : List Char :=
  (cs.reverse.dropWhile isPySpace).reverse

/-- `str.strip()` on the character list. -/
def pyStripChars (cs : List Char) : List Char :=
  lstripChars (rstripChars cs)

/-- `str.strip()`. -/
def pyStrip (s : String) : String :=
  String.mk (pyStripChars s.data)

/-- `str.lower()` (ASCII fragment). -/
def pyLower (s : String) : String :=
  String.mk (s.data.map Char.toLower)

/-- `str.isdigit()` (ASCII fragment): nonempty and all digits. -/
def pyIsDigit (s : String) : Bool :=
  !s.data.isEmpty && s.data.all Char.isDigit

/-- `str.replace(c, r)` for a single-character pattern `c`:
every occurrence of `c` becomes the string `r`. -/
def replaceCharWith (c : Char) (r : List Char) (cs : List Char) : List Char :=
  cs.flatMap (fun x => if x = c then r else [x])

/-- `re.sub(r'\s+', ' ', ·)`: each maximal whitespace run becomes one space. -/
def collapseWs : List Char → List Char
  | [] => []
  | [c] => if isPySpace c then [' '] else [c]
  | a :: b :: rest =>
    if isPySpace a && isPySpace b then collapseWs (b :: rest)
    else (if isPySpace a then ' ' else a) :: collapseWs (b :: rest)

/-- Helper for `stripDigitTokens`: emit a finished non-space run, replacing it
with a single space when it contains a digit (as `re.sub(r'\S*\d\S*', ' ', ·)`
does, since the greedy match covers the whole maximal `\S` run). -/
def emitRun (acc : List Char) (tail : List Char) : List Char :=
  if acc.isEmpty then tail
  else if acc.any Char.isDigit then ' ' :: tail
  else acc.reverse ++ tail

/-- Worker for `stripDigitTokens`; `acc` is the current non-space run, reversed. -/
def stripDigitTokensAux : List Char → List Char → List Char
  | [], acc => emitRun acc []
  | c :: rest, acc =>
    if isPySpace c then emitRun acc (c :: stripDigitTokensAux rest [])
    else stripDigitTokensAux rest (c :: acc)

/-- `re.sub(r'\S*\d\S*', ' ', ·)`: every maximal non-whitespace run containing
at least one digit is replaced by a single space. -/
def stripDigitTokens (cs : List Char) : List Char :=
  stripDigitTokensAux cs []

/-- `src.config.PUNCTUATION` (`!()-[]{};:'",<>./?@#$%^&*_~`). -/
def PUNCTUATION : List Char :=
  "!()-[]\x7b\x7d;:\x27\x22,<>./?@#$%^&*_~".data

/-- The marker string ` <SENT> ` substituted for sentence delimiters. -/
def sentMarkerIns : List Char :=
  " <SENT> ".data

/-- `other_punct` of `preprocess_text`: the base punctuation string
`()-[]{};:'",<>./?@#$%^&*_~` with `.`, `!`, `?` and `;` removed. -/
def other_punct : List Char :=
  replaceCharWith ';' []
    (replaceCharWith '?' []
      (replaceCharWith '!' []
        (replaceCharWith '.' [] "()-[]\x7b\x7d;:\x27\x22,<>./?@#$%^&*_~".data)))

/-- `preprocess_text(text, case_sensitive, include_numbers, preserve_sentence_boundaries)`
from `src/src/text_processor.py`: optional digit-token removal, punctuation folding
(to spaces, or sentence delimiters to ` <SENT> ` markers), whitespace collapsing,
stripping, and case folding. -/
def preprocess_text (text : String) (case_sensitive : Bool := false)
    (include_numbers : Bool := false) (preserve_sentence_boundaries : Bool := false) :
    String :=
  let cs0 := text.data
  let cs1 := if include_numbers then cs0 else stripDigitTokens cs0
  let cs2 :=
    if preserve_sentence_boundaries then
      let a := replaceCharWith '.' sentMarkerIns cs1
      let b := replaceCharWith '!' sentMarkerIns a
      let c := replaceCharWith '?' sentMarkerIns b
      let d := replaceCharWith ';' sentMarkerIns c
      let e := replaceCharWith '\n' sentMarkerIns d
      other_punct.foldl (fun acc p => replaceCharWith p [' '] acc) e
    else
      PUNCTUATION.foldl (fun acc p => replaceCharWith p [' '] acc) cs1
  let cs3 := pyStripChars (collapseWs cs2)
  let cs4 := if case_sensitive then cs3 else cs3.map Char.toLower
  String.mk cs4

/-- Worker for `tokenizeChars`; `acc` is the current word-character run, reversed. -/
def tokenizeCharsAux : List Char → List Char → List (List Char)
  | [], acc => if acc.isEmpty then [] else [acc.reverse]
  | c :: rest, acc =>
    if isWordChar c then tokenizeCharsAux rest (c :: acc)
    else if acc.isEmpty then tokenizeCharsAux rest []
    else acc.reverse :: tokenizeCharsAux rest []

/-- `re.findall(r'\b\w+\b', text)`: the maximal runs of word characters. -/
def tokenizeChars (cs : List Char) : List (List Char) :=
  tokenizeCharsAux cs []

/-- Tokenisation producing strings. -/
def tokenize (text : String) : List String :=
  (tokenizeChars text.data).map String.mk

/-- One step of `collections.Counter`: increment the entry of `t`, appending a
fresh entry with count 1 if `t` is new (dicts preserve insertion order). -/
def bump : List (String × Nat) → String → List (String × Nat)
  | [], t => [(t, 1)]
  | (k, v) :: rest, t =>
    if k = t then (k, v + 1) :: rest else (k, v) :: bump rest t

/-- `collections.Counter(tokens)` as an insertion-ordered association list. -/
def counter (tokens : List String) : List (String × Nat) :=
  tokens.foldl bump []

/-- The bigram loop of `generate_word_count_from_text`: for each adjacent pair,
skip it when either token is the (lowercase) sentence marker `sent`, skip it
when numbers are excluded and either token contains a digit, and otherwise
emit the two tokens joined by a single space. -/
def bigramPairs (include_numbers : Bool) : List String → List String
  | a :: b :: rest =>
    let tail := bigramPairs include_numbers (b :: rest)
    if a = "sent" || b = "sent" then tail
    else if !include_numbers && (a.data.any Char.isDigit || b.data.any Char.isDigit) then tail
    else (a ++ " " ++ b) :: tail
  | _ => []

/-- The counting phase of `generate_word_count_from_text` (after token
filtering): normalise and validate the n-gram mode, then count unigrams, or
sentence-marker-aware bigrams (an empty map when fewer than two tokens
survive). -/
def countTokens (tokens2 : List String) (ngram : String) (include_numbers : Bool) :
    Except PyErr (List (String × Nat)) :=
  let ng := pyStrip (pyLower ngram)
  if ¬(ng = "unigram" ∨ ng = "bigram") then
    Except.error (PyErr.valueError
      ("Invalid ngram value: " ++ ng ++ ". Expected \x22unigram\x22 or \x22bigram\x22."))
  else if ng = "unigram" then
    Except.ok (counter tokens2)
  else if tokens2.length < 2 then
    Except.ok []
  else
    Except.ok (counter (bigramPairs include_numbers tokens2))

/-- `generate_word_count_from_text(text, language, include_stopwords, ngram, include_numbers)`
from `src/src/text_processor.py`, parameterised by the NLTK stopword lookup.
Tokenises on word boundaries, filters stopwords (the lookup runs — and can
fail — exactly when stopwords are excluded), drops pure-digit tokens unless
numbers are included, then runs the counting phase. -/
def generate_word_count_from_text
    (stopwordsWords : String → Except PyErr (List String))
    (text : String) (language : String)
    (include_stopwords : Bool := false) (ngram : String := "unigram")
    (include_numbers : Bool := false) :
    Except PyErr (List (String × Nat)) :=
  let tokens0 := tokenize text
  let filtered : Except PyErr (List String) :=
    if include_stopwords then Except.ok tokens0
    else
      match stopwordsWords language with
      | Except.error e => Except.error e
      | Except.ok stopword_set =>
        Except.ok (tokens0.filter (fun t => !stopword_set.contains t))
  match filtered with
  | Except.error e => Except.error e
  | Except.ok tokens1 =>
    countTokens (if include_numbers then tokens1 else tokens1.filter (fun t => !pyIsDigit t))
      ngram include_numbers

/-- Model of `nltk.corpus.stopwords.words`: languages present in the corpus
yield their stopword list; any other language raises (NLTK fails to open the
missing corpus file). -/
def nltkStopwords (corpus : List (String × List String)) (language : String) :
    Except PyErr (List String) :=
  match corpus.find? (fun kv => kv.1 == language) with
  | some kv => Except.ok kv.2
  | none => Except.error (PyErr.osError ("No such file or directory: stopwords/" ++ language))

/-- A regex transformation rule: `replacement = none` means "delete matches". -/
structure RegexRule where
  pattern : String
  replacement : Option String := none
deriving DecidableEq

/-- `_normalize_backreferences(replacement)`: each control byte 1–9 that is not
preceded by a backslash in the original string becomes the textual
backreference `\1` … `\9`. The recursion carries the previous original
character, matching the Python index-based scan. -/
def normBackrefChars : Option Char → List Char → List Char
  | _, [] => []
  | prev, c :: rest =>
    if 1 ≤ c.toNat ∧ c.toNat ≤ 9 ∧ prev ≠ some '\\' then
      '\\' :: Char.ofNat (48 + c.toNat) :: normBackrefChars (some c) rest
    else
      c :: normBackrefChars (some c) rest

/-- `_normalize_backreferences` from `src/src/text_processor.py`. -/
def _normalize_backreferences (replacement : String) : String :=
  String.mk (normBackrefChars none replacement.data)

/-- `rule_string.split('|', 1)` when a pipe is present: the part before the
first pipe and the part after it. -/
def splitFirstPipe (cs : List Char) : List Char × List Char :=
  (cs.takeWhile (fun c => c ≠ '|'), (cs.dropWhile (fun c => c ≠ '|')).drop 1)

/-- `_parse_single_regex_rule(rule_string)` from `src/src/text_processor.py`,
parameterised by `compiles`, a model of "`re.compile(pattern)` succeeds".
Strips the line; splits at the first pipe when one is present; an empty
(post-strip) replacement means delete; a non-empty replacement has its
backreferences normalised; an empty rule or pattern yields `none`; a pattern
that does not compile raises `ValueError`. -/
def _parse_single_regex_rule (compiles : String → Bool) (rule_string : String) :
    Except PyErr (Option RegexRule) :=
  let rs := pyStrip rule_string
  if rs = "" then Except.ok none
  else
    let pr : String × Option String :=
      if rs.data.contains '|' then
        let parts := splitFirstPipe rs.data
        let pat := pyStrip (String.mk parts.1)
        let rep := pyStrip (String.mk parts.2)
        if rep = "" then (pat, none)
        else (pat, some (_normalize_backreferences rep))
      else (rs, none)
    if pr.1 = "" then Except.ok none
    else if compiles pr.1 then Except.ok (some ⟨pr.1, pr.2⟩)
    else Except.error (PyErr.valueError ("Invalid regex pattern \x22" ++ pr.1 ++ "\x22"))

/-- Case-aware literal match: consume the pattern characters `ps` from the
front of `cs`, returning the remainder (IGNORECASE compares lowercased). -/
def litMatch (ci : Bool) : List Char → List Char → Option (List Char)
  | [], cs => some cs
  | _ :: _, [] => none
  | p :: ps, c :: cs =>
    if (if ci then p.toLower = c.toLower else p = c) then litMatch ci ps cs else none

/-- One line of `re.sub(r'^Page \d+', '', ·, re.MULTILINE)`: the pattern is
anchored at line start and cannot match a newline, so at most the literal
`Page ` followed by a maximal nonempty digit run is deleted from the line
head; the rest of the line is kept. -/
def pageDeleteLine (ci : Bool) (line : List Char) : List Char :=
  match litMatch ci "Page ".data line with
  | none => line
  | some rest =>
    if (rest.takeWhile Char.isDigit).isEmpty then line
    else rest.dropWhile Char.isDigit

/-- `re.sub(r'^Page \d+', '', text, re.MULTILINE [| re.IGNORECASE])`:
with MULTILINE, `^` matches at the string start and after each newline, and
since the pattern cannot span a newline, substitution acts on each
newline-separated line independently and the newlines themselves survive. -/
def reSubPageDelete (ci : Bool) (cs : List Char) : List Char :=
  List.intercalate ['\n'] ((cs.splitOn '\n').map (pageDeleteLine ci))

/-- Model of `re.sub(pattern, repl, input, flags)` as used by
`apply_regex_transformations`, covering the regex pattern exercised by the
claims (`^Page \d+`, deletion). Patterns outside the model report an error. -/
def reSubModel (pattern : String) (replacement : String) (case_sensitive : Bool)
    (input : String) : Except PyErr String :=
  if pattern = "^Page \\d+" ∧ replacement = "" then
    Except.ok (String.mk (reSubPageDelete (!case_sensitive) input.data))
  else
    Except.error (PyErr.valueError ("re.sub model does not cover pattern " ++ pattern))

/-- The rule loop of `apply_regex_transformations`: rules apply in order, each
seeing the previous rule's output; empty patterns are skipped; a rule with no
replacement substitutes the empty string (deletion). -/
def applyRulesLoop (reSub : String → String → Bool → String → Except PyErr String)
    (case_sensitive : Bool) : List RegexRule → String → Except PyErr String
  | [], acc => Except.ok acc
  | r :: rest, acc =>
    if r.pattern = "" then applyRulesLoop reSub case_sensitive rest acc
    else
      match reSub r.pattern (r.replacement.getD "") case_sensitive acc with
      | Except.error e => Except.error e
      | Except.ok acc2 => applyRulesLoop reSub case_sensitive rest acc2

/-- `apply_regex_transformations(text, rules, case_sensitive)` from
`src/src/text_processor.py`, parameterised by the `re.sub` engine (which
always receives MULTILINE, and IGNORECASE exactly when not case-sensitive). -/
def apply_regex_transformations
    (reSub : String → String → Bool → String → Except PyErr String)
    (text : String) (rules : List RegexRule) (case_sensitive : Bool := false) :
    Except PyErr String :=
  applyRulesLoop reSub case_sensitive rules text

/-- `_safe_percent(freq, total)` from `src/src/report_generator.py`. -/
def _safe_percent (freq total : ℚ) : ℚ :=
  if total ≤ 0 then 0 else freq / total * 100

/-- Lexicographic comparison of character lists by code point, Python's `str` order. -/
def charsLe : List Char → List Char → Bool
  | [], _ => true
  | _ :: _, [] => false
  | a :: as, b :: bs =>
    if a < b then true
    else if b < a then false
    else charsLe as bs

/-- Python string order `a <= b` as a proposition. -/
def strLe (a b : String) : Prop :=
  charsLe a.data b.data = true

instance : DecidableRel strLe := fun a b => by
  unfold strLe; infer_instance

/-- The `sorted(..., key=lambda item: (-item[1], item[0]))` order used by the
analytics: larger counts first, ties broken by ascending key. -/
def itemLe (a b : String × ℚ) : Prop :=
  b.2 < a.2 ∨ (a.2 = b.2 ∧ strLe a.1 b.1)

instance : DecidableRel itemLe := fun a b => by
  unfold itemLe; infer_instance

/-- Model of Python `sorted` on frequency items (total order: dict keys are unique). -/
def sortItems (frequencies : List (String × ℚ)) : List (String × ℚ) :=
  List.insertionSort itemLe frequencies

/-- Model of Python `list.sort()` on strings. -/
def sortStrings (tokens : List String) : List String :=
  List.insertionSort strLe tokens

/-- `total_tokens` of `_compute_analysis`: the sum of all counts. -/
def total_tokens_of (frequencies : List (String × ℚ)) : ℚ :=
  (frequencies.map (fun kv => kv.2)).sum

/-- `unique_tokens` of `_compute_analysis`: the number of keys. -/
def unique_tokens_of (frequencies : List (String × ℚ)) : ℕ :=
  frequencies.length

/-- `_top_words(frequencies, total_tokens, top_n)` from
`src/src/report_generator.py`: the first `top_n` items in `(-count, key)`
order, each carrying its percentage of the total. -/
def _top_words (frequencies : List (String × ℚ)) (total_tokens : ℚ) (top_n : ℕ) :
    List (String × ℚ × ℚ) :=
  if frequencies.isEmpty || top_n == 0 then []
  else
    ((sortItems frequencies).take top_n).map
      (fun kv => (kv.1, kv.2, _safe_percent kv.2 total_tokens))

/-- `_hapax_legomena(frequencies, sample_size)` from
`src/src/report_generator.py`, parameterised by the SHA-256-to-integer hash
and the seeded Fisher–Yates shuffle of `random.Random` (both deterministic
functions of their arguments). Collects the count-1 keys, sorts them, derives
the shuffle seed from the joined sorted keys, shuffles a copy and truncates. -/
def _hapax_legomena (sha : String → ℕ) (shuffle : ℕ → List String → List String)
    (frequencies : List (String × ℚ)) (sample_size : ℕ) : ℕ × List String :=
  let tokens := (frequencies.filter (fun kv => |kv.2 - 1| < 1 / 1000000000)).map
    (fun kv => kv.1)
  let sorted_tokens := sortStrings tokens
  let seed_source := String.intercalate "|" sorted_tokens
  let seed_value := sha seed_source % 2 ^ 32
  let sample := shuffle seed_value sorted_tokens
  (sorted_tokens.length, sample.take sample_size)

/-- The inner `while targets and current_index >= targets[0]` loop of
`_vocabulary_concentration`: pop every leading target reached by the current
index, recording for each its percent-of-total (from the running cumulative)
and percent-of-unique. -/
def popTargets (total : ℚ) (uniq : ℕ) (idx : ℕ) (cum : ℚ) :
    List ℕ → List (ℕ × ℚ × ℚ) × List ℕ
  | [] => ([], [])
  | b :: rest =>
    if b ≤ idx then
      let pr := popTargets total uniq idx cum rest
      ((b, _safe_percent cum total, _safe_percent b uniq) :: pr.1, pr.2)
    else ([], b :: rest)

/-- The main `for _, freq in sorted_items` walk of `_vocabulary_concentration`:
accumulate counts, pop reached targets, break once no target remains. Returns
the recorded buckets, the unreached targets and the final cumulative. -/
def concLoop (total : ℚ) (uniq : ℕ) :
    List ℚ → List ℕ → ℚ → ℕ → List (ℕ × ℚ × ℚ) × List ℕ × ℚ
  | [], targets, cum, _ => ([], targets, cum)
  | f :: rest, targets, cum, idx =>
    let cum2 := cum + f
    let idx2 := idx + 1
    let pr := popTargets total uniq idx2 cum2 targets
    match pr.2 with
    | [] => (pr.1, [], cum2)
    | _ :: _ =>
      let rec2 := concLoop total uniq rest pr.2 cum2 idx2
      (pr.1 ++ rec2.1, rec2.2.1, rec2.2.2)

/-- `_vocabulary_concentration(frequencies, total_tokens, buckets)` from
`src/src/report_generator.py`: walk the items in `(-count, key)` order,
recording at each requested rank cutoff the share of the total covered so
far; unreached buckets receive the final cumulative totals; an empty map or
non-positive total yields all-zero rows. The result dict is represented as
one row per requested bucket. -/
def _vocabulary_concentration (frequencies : List (String × ℚ)) (total_tokens : ℚ)
    (buckets : List ℕ) : List (ℕ × ℚ × ℚ) :=
  if frequencies.isEmpty || total_tokens ≤ 0 then
    buckets.map (fun b => (b, 0, 0))
  else
    let uniq := frequencies.length
    let freqs := (sortItems frequencies).map (fun kv => kv.2)
    let targets := List.insertionSort (fun a b : ℕ => a ≤ b) buckets
    let res := concLoop total_tokens uniq freqs targets 0 0
    buckets.map (fun b =>
      match (res.1.find? (fun r => r.1 == b)) with
      | some r => (b, r.2)
      | none => (b, _safe_percent res.2.2 total_tokens, _safe_percent b uniq))

/-- Read the `percent_of_total` entry of a concentration table row. -/
def percent_of_total (table : List (ℕ × ℚ × ℚ)) (b : ℕ) : ℚ :=
  match table.find? (fun r => r.1 == b) with
  | some r => r.2.1
  | none => 0

/-- View a counted map (integer counts) as the float-valued map consumed by the
analytics functions. -/
def toRatMap (m : List (String × Nat)) : List (String × ℚ) :=
  m.map (fun kv => (kv.1, (kv.2 : ℚ)))

/-- Split a character list at every occurrence of a separator (occurrences are
removed; empty segments are kept), as `str.split(sep)` does. -/
def splitChar (sep : Char) : List Char → List (List Char)
  | [] => [[]]
  | c :: rest =>
    if c = sep then [] :: splitChar sep rest
    else
      match splitChar sep rest with
      | [] => [[c]]
      | g :: gs => (c :: g) :: gs

/-- The space-separated components of a frequency-map key (for a bigram key
`"a b"` these are the two member tokens). -/
def keyTokens (k : String) : List String :=
  (splitChar ' ' k.data).map String.mk

/-- Claim C1 (counterexample): with the NLTK corpus model, a language absent
from the stopword corpus makes `generate_word_count_from_text` raise (the
unguarded `stopwords.words(language)` call at line 301 propagates the lookup
error), instead of completing as with an empty stopword set — which, as the
second conjunct shows, would have produced a normal count. -/
theorem generate_word_count_unsupported_language_raises :
    generate_word_count_from_text (nltkStopwords [("english", ["the", "a", "an"])])
      "hello world" "klingon" false "unigram" false
      = Except.error (PyErr.osError "No such file or directory: stopwords/klingon")
    ∧ generate_word_count_from_text (fun _ => Except.ok [])
      "hello world" "klingon" false "unigram" false
      = Except.ok [("hello", 1), ("world", 1)] :=
  ⟨rfl, rfl⟩

/-- Claim C1 (amended): when stopwords are excluded and the stopword lookup
fails for the language, `generate_word_count_from_text` propagates that error
unchanged (no frequency map is returned); it does not degrade to an empty
stopword set. -/
theorem generate_word_count_propagates_stopword_error
    (stopwordsWords : String → Except PyErr (List String))
    (text language ngram : String) (include_numbers : Bool) (e : PyErr)
    (h : stopwordsWords language = Except.error e) :
    generate_word_count_from_text stopwordsWords text language false ngram include_numbers
      = Except.error e := by
  simp only [generate_word_count_from_text, Bool.false_eq_true, if_false, h]

/-- Witness for the amended claim C1 at a concrete unsupported language. -/
theorem generate_word_count_propagates_stopword_error_witness :
    generate_word_count_from_text (nltkStopwords [("english", ["the", "a", "an"])])
      "good morning world" "klingon" false "unigram" false
      = Except.error (PyErr.osError "No such file or directory: stopwords/klingon") :=
  generate_word_count_propagates_stopword_error _ _ _ _ _ _ rfl

/-- Claim C2 (counterexample): bigram mode over the literal text
`red car <SENT> blue bike` does not return the map containing only
`blue bike`: the uppercase `SENT` tokens fail the lowercase `sent` guard, so
the marker-crossing keys `car SENT` and `SENT blue`, and the in-sentence key
`red car`, are all present. -/
theorem bigram_uppercase_marker_counterexample :
    generate_word_count_from_text (fun _ => Except.ok [])
      "red car <SENT> blue bike" "english" true "bigram" false
      = Except.ok [("red car", 1), ("car SENT", 1), ("SENT blue", 1), ("blue bike", 1)]
    ∧ ([("red car", 1), ("car SENT", 1), ("SENT blue", 1), ("blue bike", 1)] :
        List (String × Nat)) ≠ [("blue bike", 1)] :=
  ⟨rfl, by decide⟩

/-- Claim C2 (amended): with the marker in the lowercase form the pipeline
actually produces (`sent`), bigram mode over `red car <sent> blue bike`
yields exactly the two in-sentence keys `red car` and `blue bike`; no key
crosses the marker, and in particular `car blue` is absent. -/
theorem bigram_sentence_marker_scenario
    (stopwordsWords : String → Except PyErr (List String)) (language : String) :
    generate_word_count_from_text stopwordsWords
      "red car <sent> blue bike" language true "bigram" false
      = Except.ok [("red car", 1), ("blue bike", 1)]
    ∧ "car blue" ∉ List.map Prod.fst [("red car", 1), ("blue bike", 1)] :=
  ⟨rfl, by decide⟩

/-- Claim C3 (code evaluated at the failing input): in case-sensitive mode the
normalizer emits the sentence marker as the uppercase token `SENT`
(`preprocess_text("One. Two", case_sensitive=True, preserve_sentence_boundaries=True)`),
and the bigram counter — whose guard tests only the lowercase `sent` — then
returns keys that contain the sentence-break marker token. -/
theorem bigram_keys_contain_marker_in_case_sensitive_mode :
    preprocess_text "One. Two" true false true = "One SENT Two"
    ∧ generate_word_count_from_text (fun _ => Except.ok [])
      (preprocess_text "One. Two" true false true) "english" true "bigram" false
      = Except.ok [("One SENT", 1), ("SENT Two", 1)] :=
  ⟨rfl, rfl⟩

/-- Claim C4 (counterexample): deleting `^Page \d+` (multiline) from
`"Page 1\nBody text\nPage 2"` does not return `"Body text"`: the newline
characters are not part of any match and survive. -/
theorem regex_page_rule_counterexample :
    apply_regex_transformations reSubModel "Page 1\nBody text\nPage 2"
      [⟨"^Page \\d+", none⟩] false ≠ Except.ok "Body text" := by
  decide

/-- Claim C4 (amended): the delete rule `^Page \d+` applied to
`"Page 1\nBody text\nPage 2"` removes both page headings but keeps the line
breaks, returning `"\nBody text\n"`. -/
theorem regex_page_rule_scenario :
    apply_regex_transformations reSubModel "Page 1\nBody text\nPage 2"
      [⟨"^Page \\d+", none⟩] false = Except.ok "\nBody text\n" :=
  rfl

/-- Claim C5: normalizing `"the cat sat on the mat. the cat ran."` and counting
unigrams with a stopword set removing `the` and `on` yields exactly
`{cat: 2, sat: 1, mat: 1, ran: 1}`; on that map the analysis computes
`total = 5`, `unique = 4`, and `top_words(2)` starts with `("cat", 2, 40%)`. -/
theorem word_count_scenario_cat_mat :
    generate_word_count_from_text (fun _ => Except.ok ["the", "on"])
      (preprocess_text "the cat sat on the mat. the cat ran." false false false)
      "english" false "unigram" false
      = Except.ok [("cat", 2), ("sat", 1), ("mat", 1), ("ran", 1)]
    ∧ total_tokens_of (toRatMap [("cat", 2), ("sat", 1), ("mat", 1), ("ran", 1)]) = 5
    ∧ unique_tokens_of (toRatMap [("cat", 2), ("sat", 1), ("mat", 1), ("ran", 1)]) = 4
    ∧ (_top_words (toRatMap [("cat", 2), ("sat", 1), ("mat", 1), ("ran", 1)]) 5 2).head?
      = some ("cat", 2, 40) := by
  refine ⟨rfl, ?_, rfl, ?_⟩
  · simp only [toRatMap, total_tokens_of, List.map_cons, List.map_nil, List.sum_cons,
      List.sum_nil]
    norm_num
  · simp only [toRatMap, List.map_cons, List.map_nil]
    norm_num [_top_words, sortItems, _safe_percent, itemLe, strLe, charsLe]

/-- Claim C10: the n-gram mode is validated after lowercasing and stripping;
any other mode raises `ValueError` (no frequency map), while the two accepted
modes proceed to a normal result — provided the run reaches the validation
(stopwords included, or a successful stopword lookup). -/
theorem generate_word_count_ngram_validation
    (stopwordsWords : String → Except PyErr (List String))
    (text language ngram : String) (include_stopwords include_numbers : Bool)
    (st : List String)
    (hsw : include_stopwords = true ∨ stopwordsWords language = Except.ok st) :
    (pyStrip (pyLower ngram) ≠ "unigram" ∧ pyStrip (pyLower ngram) ≠ "bigram" →
      generate_word_count_from_text stopwordsWords text language include_stopwords
        ngram include_numbers
        = Except.error (PyErr.valueError ("Invalid ngram value: " ++ pyStrip (pyLower ngram)
            ++ ". Expected \x22unigram\x22 or \x22bigram\x22.")))
    ∧ ((pyStrip (pyLower ngram) = "unigram" ∨ pyStrip (pyLower ngram) = "bigram") →
      ∃ m, generate_word_count_from_text stopwordsWords text language include_stopwords
        ngram include_numbers = Except.ok m) := by
  have hc : ∀ ts : List String,
      (pyStrip (pyLower ngram) ≠ "unigram" ∧ pyStrip (pyLower ngram) ≠ "bigram" →
        countTokens ts ngram include_numbers
          = Except.error (PyErr.valueError ("Invalid ngram value: " ++ pyStrip (pyLower ngram)
              ++ ". Expected \x22unigram\x22 or \x22bigram\x22.")))
      ∧ ((pyStrip (pyLower ngram) = "unigram" ∨ pyStrip (pyLower ngram) = "bigram") →
        ∃ m, countTokens ts ngram include_numbers = Except.ok m) := by
    intro ts
    constructor
    · intro hng
      rw [countTokens, if_pos]
      rintro (h1 | h2)
      · exact hng.1 h1
      · exact hng.2 h2
    · rintro (h | h)
      · rw [countTokens, if_neg (by tauto), if_pos h]
        exact ⟨_, rfl⟩
      · by_cases hu : pyStrip (pyLower ngram) = "unigram"
        · rw [countTokens, if_neg (by tauto), if_pos hu]
          exact ⟨_, rfl⟩
        · rw [countTokens, if_neg (by tauto), if_neg hu]
          split
          · exact ⟨_, rfl⟩
          · exact ⟨_, rfl⟩
  rcases hsw with h | h
  · subst h
    simpa only [generate_word_count_from_text, if_true] using hc _
  · cases include_stopwords
    · simpa only [generate_word_count_from_text, Bool.false_eq_true, if_false, h] using hc _
    · simpa only [generate_word_count_from_text, if_true] using hc _

/-- Witness for claim C10: the mode ` Trigram ` (normalised `trigram`) raises
the exact `ValueError` message. -/
theorem generate_word_count_ngram_validation_witness :
    generate_word_count_from_text (fun _ => Except.ok []) "a b" "english" false
      " Trigram " false
      = Except.error (PyErr.valueError
          "Invalid ngram value: trigram. Expected \x22unigram\x22 or \x22bigram\x22.") :=
  (generate_word_count_ngram_validation (fun _ => Except.ok []) "a b" "english"
    " Trigram " false false [] (Or.inr rfl)).1 (by decide)

theorem dropWhile_append_all {α} (p : α → Bool) {xs : List α} (ys : List α)
    (h : ∀ c ∈ xs, p c = true) :
    (xs ++ ys).dropWhile p = ys.dropWhile p := by
  induction xs with
  | nil => rfl
  | cons a l ih =>
    rw [List.cons_append, List.dropWhile_cons, if_pos (h a (by simp))]
    exact ih (fun c hc => h c (by simp [hc]))

theorem takeWhile_append_all {α} (p : α → Bool) {xs : List α} (ys : List α)
    (h : ∀ c ∈ xs, p c = true) :
    (xs ++ ys).takeWhile p = xs ++ ys.takeWhile p := by
  induction xs with
  | nil => rfl
  | cons a l ih =>
    rw [List.cons_append, List.takeWhile_cons, if_pos (h a (by simp)), List.cons_append,
      ih (fun c hc => h c (by simp [hc]))]

theorem dropWhile_append_stop {α} (p : α → Bool) {c : α} (h : p c = false)
    (xs ys : List α) :
    (xs ++ c :: ys).dropWhile p = xs.dropWhile p ++ c :: ys := by
  induction xs with
  | nil => simp [List.dropWhile_cons, h]
  | cons a l ih =>
    rw [List.cons_append, List.dropWhile_cons, List.dropWhile_cons]
    cases hpa : p a
    · simp
    · simpa using ih

theorem rstripChars_all_space {l : List Char} (h : ∀ c ∈ l, isPySpace c = true) :
    rstripChars l = [] := by
  unfold rstripChars
  rw [List.dropWhile_eq_nil_iff.mpr (fun c hc => h c (List.mem_reverse.mp hc))]
  rfl

theorem rstripChars_append_stop {c : Char} (h : isPySpace c = false) (xs ys : List Char) :
    rstripChars (xs ++ c :: ys) = xs ++ c :: rstripChars ys := by
  unfold rstripChars
  rw [List.reverse_append, List.reverse_cons, List.append_assoc, List.singleton_append,
    dropWhile_append_stop isPySpace h, List.reverse_append, List.reverse_cons,
    List.reverse_reverse, List.append_assoc, List.singleton_append]

theorem lstripChars_head_not_space {l : List Char} {c : Char} {rest : List Char}
    (h : lstripChars l = c :: rest) : isPySpace c = false := by
  induction l with
  | nil => exact absurd h (by simp [lstripChars])
  | cons a t ih =>
    unfold lstripChars at h
    rw [List.dropWhile_cons] at h
    by_cases hpa : isPySpace a = true
    · rw [if_pos hpa] at h
      exact ih h
    · rw [if_neg hpa] at h
      cases h
      exact Bool.eq_false_iff.mpr hpa

theorem lstripChars_decompose (l : List Char) :
    l = l.takeWhile isPySpace ++ lstripChars l :=
  (List.takeWhile_append_dropWhile ..).symm

theorem pyStripChars_of_lstrip_cons {l : List Char} {c : Char} {rest : List Char}
    (h : lstripChars l = c :: rest) :
    pyStripChars l = c :: rstripChars rest := by
  have hc : isPySpace c = false := lstripChars_head_not_space h
  have hdec := lstripChars_decompose l
  rw [h] at hdec
  unfold pyStripChars lstripChars
  rw [show l = l.takeWhile isPySpace ++ c :: rest from hdec,
    rstripChars_append_stop hc, dropWhile_append_all _ _
      (fun x hx => List.mem_takeWhile_imp hx), List.dropWhile_cons, if_neg (by simp [hc])]

theorem pyStripChars_of_lstrip_nil {l : List Char} (h : lstripChars l = []) :
    pyStripChars l = [] := by
  have hall : ∀ c ∈ l, isPySpace c = true := List.dropWhile_eq_nil_iff.mp h
  unfold pyStripChars
  rw [rstripChars_all_space hall]
  rfl

theorem mem_rstripChars {l : List Char} {c : Char} (h : c ∈ rstripChars l) : c ∈ l := by
  unfold rstripChars at h
  rw [List.mem_reverse] at h
  exact List.mem_reverse.mp ((List.dropWhile_sublist _).subset h)

theorem mem_lstripChars {l : List Char} {c : Char} (h : c ∈ lstripChars l) : c ∈ l :=
  (List.dropWhile_sublist _).subset h

/-- Evaluation of `_parse_single_regex_rule` on a pipe-free line: the stripped
line is the pattern and the replacement is absent. -/
theorem parse_rule_no_pipe (compiles : String → Bool) (p : String)
    (hpipe : '|' ∉ p.data) :
    _parse_single_regex_rule compiles p
      = (if pyStrip p = "" then Except.ok none
        else if compiles (pyStrip p) then Except.ok (some ⟨pyStrip p, none⟩)
        else Except.error (PyErr.valueError
          ("Invalid regex pattern \x22" ++ pyStrip p ++ "\x22"))) := by
  have hsub : '|' ∉ (pyStrip p).data := by
    intro hmem
    exact hpipe (mem_rstripChars (mem_lstripChars hmem))
  unfold _parse_single_regex_rule
  by_cases hrs : pyStrip p = ""
  · rw [if_pos hrs, if_pos hrs]
  · rw [if_neg hrs, if_neg hrs]
    rw [if_neg (show ¬((pyStrip p).data.contains '|' = true) from by
      simpa using hsub)]
    dsimp only
    rw [if_neg hrs]

/-- Evaluation of `_parse_single_regex_rule` on a pipe-free pattern followed by
a pipe and trailing whitespace: same outcome as on the bare pattern. -/
theorem parse_rule_trailing_pipe (compiles : String → Bool) (p ws : String)
    (hpipe : '|' ∉ p.data) (hws : ∀ c ∈ ws.data, isPySpace c = true) :
    _parse_single_regex_rule compiles (p ++ "|" ++ ws)
      = (if pyStrip p = "" then Except.ok none
        else if compiles (pyStrip p) then Except.ok (some ⟨pyStrip p, none⟩)
        else Except.error (PyErr.valueError
          ("Invalid regex pattern \x22" ++ pyStrip p ++ "\x22"))) := by
  have hdata : (p ++ "|" ++ ws).data = p.data ++ '|' :: ws.data := by
    rw [String.data_append, String.data_append]
    simp
  have hstrip : pyStripChars (p ++ "|" ++ ws).data = lstripChars (p.data ++ ['|']) := by
    rw [hdata]
    unfold pyStripChars
    rw [rstripChars_append_stop (by rfl) p.data ws.data, rstripChars_all_space hws]
  cases hcase : lstripChars p.data with
  | nil =>
    have hallsp : ∀ c ∈ p.data, isPySpace c = true := List.dropWhile_eq_nil_iff.mp hcase
    have hone : pyStrip (p ++ "|" ++ ws) = "|" := by
      show String.mk (pyStripChars (p ++ "|" ++ ws).data) = "|"
      rw [hstrip, lstripChars, dropWhile_append_all _ _ hallsp]
      rfl
    have hrs2 : pyStrip p = "" := by
      show String.mk (pyStripChars p.data) = ""
      rw [pyStripChars_of_lstrip_nil hcase]
    rw [if_pos hrs2]
    unfold _parse_single_regex_rule
    conv_lhs => rw [hone]
    rfl
  | cons c rest =>
    have hc : isPySpace c = false := lstripChars_head_not_space hcase
    have hmemp : ∀ x ∈ c :: rest, x ∈ p.data := by
      intro x hx
      exact mem_lstripChars (hcase ▸ hx)
    have hnopipe : ∀ x ∈ c :: rest, x ≠ '|' := fun x hx h => hpipe (h ▸ hmemp x hx)
    have hdec := lstripChars_decompose p.data
    rw [hcase] at hdec
    have hone : pyStrip (p ++ "|" ++ ws) = String.mk (c :: (rest ++ ['|'])) := by
      show String.mk (pyStripChars (p ++ "|" ++ ws).data) = _
      rw [hstrip, show p.data ++ ['|']
          = p.data.takeWhile isPySpace ++ (c :: (rest ++ ['|'])) from by
        conv => lhs; rw [hdec]
        simp, lstripChars, dropWhile_append_all _ _ (fun x hx => List.mem_takeWhile_imp hx),
        List.dropWhile_cons, if_neg (by simp [hc])]
    have hpat : pyStrip p = String.mk (c :: rstripChars rest) := by
      show String.mk (pyStripChars p.data) = _
      rw [pyStripChars_of_lstrip_cons hcase]
    have hpredall : ∀ x ∈ c :: rest, (fun x => decide (x ≠ '|')) x = true := by
      intro x hx
      simp [hnopipe x hx]
    have hsplit : splitFirstPipe (String.mk (c :: (rest ++ ['|']))).data
        = (c :: rest, []) := by
      show splitFirstPipe (c :: (rest ++ ['|'])) = (c :: rest, [])
      unfold splitFirstPipe
      rw [show c :: (rest ++ ['|']) = (c :: rest) ++ ['|'] from by simp,
        takeWhile_append_all _ _ hpredall, dropWhile_append_all _ _ hpredall]
      simp
    have hpatmk : pyStrip (String.mk (c :: rest)) = String.mk (c :: rstripChars rest) := by
      show String.mk (pyStripChars (c :: rest)) = _
      rw [pyStripChars_of_lstrip_cons (show lstripChars (c :: rest) = c :: rest from by
        rw [lstripChars, List.dropWhile_cons, if_neg (by simp [hc])])]
    simp only [_parse_single_regex_rule]
    rw [hone, hpat]
    rw [if_neg (show ¬(String.mk (c :: (rest ++ ['|'])) = "") from by
      simp [String.ext_iff])]
    rw [if_pos (show (String.mk (c :: (rest ++ ['|']))).data.contains '|' = true from by
      simp)]
    simp only [hsplit]
    have hrepeq : pyStrip (String.mk ([] : List Char)) = "" := rfl
    simp only [hrepeq, if_pos, hpatmk]

/-- Claim C9: a rule line `pattern|` (or `pattern|` followed only by
whitespace), where the pattern itself contains no pipe, parses exactly like
the bare line `pattern`; and the bare line always parses to a delete rule
(replacement absent). -/
theorem parse_rule_empty_replacement_is_delete (compiles : String → Bool)
    (p ws : String) (hpipe : '|' ∉ p.data)
    (hws : ∀ c ∈ ws.data, isPySpace c = true) :
    _parse_single_regex_rule compiles (p ++ "|" ++ ws)
      = _parse_single_regex_rule compiles p
    ∧ ∀ r, _parse_single_regex_rule compiles p = Except.ok (some r) →
        r.replacement = none := by
  constructor
  · rw [parse_rule_trailing_pipe compiles p ws hpipe hws,
      parse_rule_no_pipe compiles p hpipe]
  · intro r hr
    rw [parse_rule_no_pipe compiles p hpipe] at hr
    by_cases h1 : pyStrip p = ""
    · rw [if_pos h1] at hr
      exact absurd hr (by simp)
    · rw [if_neg h1] at hr
      by_cases h2 : compiles (pyStrip p) = true
      · rw [if_pos h2] at hr
        cases hr
        rfl
      · rw [if_neg h2] at hr
        exact absurd hr (by simp)

/-- Witness for claim C9 at the concrete rule lines `Page \d+|  ` and `Page \d+`. -/
theorem parse_rule_empty_replacement_is_delete_witness :
    _parse_single_regex_rule (fun _ => true) ("Page \\d+" ++ "|" ++ "  ")
      = _parse_single_regex_rule (fun _ => true) "Page \\d+"
    ∧ ∀ r, _parse_single_regex_rule (fun _ => true) "Page \\d+" = Except.ok (some r) →
        r.replacement = none :=
  parse_rule_empty_replacement_is_delete (fun _ => true) "Page \\d+" "  "
    (by decide) (by decide)

theorem tokenizeCharsAux_wordChars {cs acc : List Char}
    (hacc : ∀ c ∈ acc, isWordChar c = true) :
    ∀ l ∈ tokenizeCharsAux cs acc, l ≠ [] ∧ ∀ c ∈ l, isWordChar c = true := by
  induction cs generalizing acc with
  | nil =>
    intro l hl
    unfold tokenizeCharsAux at hl
    by_cases he : acc.isEmpty = true
    · rw [if_pos he] at hl
      exact absurd hl (by simp)
    · rw [if_neg he] at hl
      rcases (by simpa using hl : l = acc.reverse) with rfl
      refine ⟨by simpa using he, fun c hc => hacc c (List.mem_reverse.mp hc)⟩
  | cons c cs ih =>
    intro l hl
    unfold tokenizeCharsAux at hl
    by_cases hw : isWordChar c = true
    · rw [if_pos hw] at hl
      exact ih (fun x hx => by
        rcases List.mem_cons.mp hx with rfl | hx
        · exact hw
        · exact hacc x hx) l hl
    · rw [if_neg hw] at hl
      by_cases he : acc.isEmpty = true
      · rw [if_pos he] at hl
        exact ih (by simp) l hl
      · rw [if_neg he] at hl
        rcases List.mem_cons.mp hl with rfl | hl
        · exact ⟨by simpa using he, fun x hx => hacc x (List.mem_reverse.mp hx)⟩
        · exact ih (by simp) l hl

/-- Every token produced by the tokenizer is a nonempty run of word characters. -/
theorem tokenize_wordChars {text : String} :
    ∀ t ∈ tokenize text, t.data ≠ [] ∧ ∀ c ∈ t.data, isWordChar c = true := by
  intro t ht
  unfold tokenize tokenizeChars at ht
  rcases List.mem_map.mp ht with ⟨l, hl, rfl⟩
  exact tokenizeCharsAux_wordChars (by simp) l hl

theorem mem_map_fst_bump {acc : List (String × Nat)} {t k : String}
    (h : k ∈ (bump acc t).map Prod.fst) : k ∈ acc.map Prod.fst ∨ k = t := by
  induction acc with
  | nil => simpa [bump] using h
  | cons kv rest ih =>
    obtain ⟨k1, v1⟩ := kv
    rw [show bump ((k1, v1) :: rest) t
        = if k1 = t then (k1, v1 + 1) :: rest else (k1, v1) :: bump rest t from rfl] at h
    by_cases he : k1 = t
    · rw [if_pos he] at h
      rcases List.mem_map.mp h with ⟨kv2, hkv2, rfl⟩
      rcases List.mem_cons.mp hkv2 with rfl | hkv2
      · exact Or.inr he
      · exact Or.inl (List.mem_map_of_mem _ (List.mem_cons_of_mem _ hkv2))
    · rw [if_neg he] at h
      rcases List.mem_map.mp h with ⟨kv2, hkv2, rfl⟩
      rcases List.mem_cons.mp hkv2 with rfl | hkv2
      · exact Or.inl (List.mem_map_of_mem _ (List.mem_cons_self ..))
      · rcases ih (List.mem_map_of_mem _ hkv2) with h1 | h1
        · rw [List.map_cons]
          exact Or.inl (List.mem_cons_of_mem _ h1)
        · exact Or.inr h1

theorem key_mem_foldl_bump {ts : List String} {acc : List (String × Nat)}
    {kv : String × Nat} (h : kv ∈ ts.foldl bump acc) :
    kv.1 ∈ acc.map Prod.fst ∨ kv.1 ∈ ts := by
  induction ts generalizing acc with
  | nil => exact Or.inl (List.mem_map_of_mem _ h)
  | cons t ts ih =>
    rw [List.foldl_cons] at h
    rcases ih h with h1 | h1
    · rcases mem_map_fst_bump h1 with h2 | h2
      · exact Or.inl h2
      · exact Or.inr (by simp [h2])
    · exact Or.inr (by simp [h1])

/-- Every key of a `Counter` result comes from the counted list. -/
theorem key_mem_counter {ts : List String} {kv : String × Nat}
    (h : kv ∈ counter ts) : kv.1 ∈ ts := by
  rcases key_mem_foldl_bump h with h1 | h1
  · exact absurd h1 (by simp)
  · exact h1

/-- Every emitted bigram joins two non-marker tokens of the input list. -/
theorem mem_bigramPairs {inc : Bool} : ∀ {ts : List String} {k : String},
    k ∈ bigramPairs inc ts →
    ∃ a b, a ∈ ts ∧ b ∈ ts ∧ ¬(a = "sent") ∧ ¬(b = "sent") ∧ k = a ++ " " ++ b := by
  intro ts
  induction ts with
  | nil =>
    intro k h
    exact absurd h (by simp [bigramPairs])
  | cons a rest ih =>
    cases rest with
    | nil =>
      intro k h
      exact absurd h (by simp [bigramPairs])
    | cons b rest2 =>
      intro k h
      rw [bigramPairs] at h
      split at h
      · rcases ih h with ⟨x, y, hx, hy, h1, h2, h3⟩
        exact ⟨x, y, List.mem_cons_of_mem _ hx, List.mem_cons_of_mem _ hy, h1, h2, h3⟩
      · split at h
        · rcases ih h with ⟨x, y, hx, hy, h1, h2, h3⟩
          exact ⟨x, y, List.mem_cons_of_mem _ hx, List.mem_cons_of_mem _ hy, h1, h2, h3⟩
        · rcases List.mem_cons.mp h with rfl | h
          · rename_i hsent _
            have hsent2 : ¬(a = "sent") ∧ ¬(b = "sent") := by
              constructor
              · intro hh
                exact hsent (by simp [hh])
              · intro hh
                exact hsent (by simp [hh])
            exact ⟨a, b, by simp, by simp, hsent2.1, hsent2.2, rfl⟩
          · rcases ih h with ⟨x, y, hx, hy, h1, h2, h3⟩
            exact ⟨x, y, List.mem_cons_of_mem _ hx, List.mem_cons_of_mem _ hy, h1, h2, h3⟩

theorem splitChar_no_sep {sep : Char} {l : List Char} (h : sep ∉ l) :
    splitChar sep l = [l] := by
  induction l with
  | nil => rfl
  | cons c rest ih =>
    have hcne : ¬(c = sep) := by
      intro hc
      exact h (by simp [hc])
    rw [splitChar, if_neg hcne, ih (fun hc => h (List.mem_cons_of_mem _ hc))]

theorem splitChar_middle {a b : List Char} {sep : Char} (ha : sep ∉ a) (hb : sep ∉ b) :
    splitChar sep (a ++ sep :: b) = [a, b] := by
  induction a with
  | nil =>
    rw [List.nil_append, splitChar, if_pos rfl, splitChar_no_sep hb]
  | cons c a' ih =>
    have hcne : ¬(c = sep) := by
      intro hc
      exact ha (by simp [hc])
    rw [List.cons_append, splitChar, if_neg hcne,
      ih (fun hc => ha (List.mem_cons_of_mem _ hc))]

/-- The components of a bigram key built from two space-free tokens. -/
theorem keyTokens_join {a b : String} (ha : ' ' ∉ a.data) (hb : ' ' ∉ b.data) :
    keyTokens (a ++ " " ++ b) = [a, b] := by
  unfold keyTokens
  rw [show (a ++ " " ++ b).data = a.data ++ ' ' :: b.data from by
    rw [String.data_append, String.data_append]
    simp, splitChar_middle ha hb]
  simp

/-- Claim C8: in bigram mode, no key of the returned frequency map has the
lowercase string `sent` among its space-separated component tokens — the
guard unconditionally drops every pair touching a token spelled `sent`,
whether it is a sentence marker or the genuine word. -/
theorem bigram_keys_never_contain_sent
    (stopwordsWords : String → Except PyErr (List String))
    (text language : String) (include_stopwords include_numbers : Bool)
    (m : List (String × Nat))
    (h : generate_word_count_from_text stopwordsWords text language include_stopwords
      "bigram" include_numbers = Except.ok m) :
    ∀ kv ∈ m, "sent" ∉ keyTokens kv.1 := by
  have hmain : ∀ ts : List String, (∀ t ∈ ts, t ∈ tokenize text) →
      countTokens ts "bigram" include_numbers = Except.ok m →
      ∀ kv ∈ m, "sent" ∉ keyTokens kv.1 := by
    intro ts hsub hct kv hkv
    unfold countTokens at hct
    rw [show pyStrip (pyLower "bigram") = "bigram" from rfl] at hct
    rw [if_neg (by simp), if_neg (by decide)] at hct
    split at hct
    · cases hct
      exact absurd hkv (by simp)
    · cases hct
      rcases mem_bigramPairs (key_mem_counter hkv) with ⟨a, b, hamem, hbmem, ha, hb, hk⟩
      have haw := tokenize_wordChars a (hsub a hamem)
      have hbw := tokenize_wordChars b (hsub b hbmem)
      have hasp : ' ' ∉ a.data := fun hsp => absurd (haw.2 ' ' hsp) (by decide)
      have hbsp : ' ' ∉ b.data := fun hsp => absurd (hbw.2 ' ' hsp) (by decide)
      rw [hk, keyTokens_join hasp hbsp]
      intro hmem
      rcases List.mem_cons.mp hmem with h1 | h1
      · exact ha h1.symm
      · rcases List.mem_cons.mp h1 with h2 | h2
        · exact hb h2.symm
        · exact absurd h2 (by simp)
  simp only [generate_word_count_from_text] at h
  by_cases hs : include_stopwords = true
  · rw [if_pos hs] at h
    dsimp only at h
    refine hmain _ ?_ h
    intro t ht
    split at ht
    · exact ht
    · exact (List.mem_filter.mp ht).1
  · rw [if_neg hs] at h
    cases hsw : stopwordsWords language with
    | error e =>
      rw [hsw] at h
      simp at h
    | ok sw =>
      rw [hsw] at h
      dsimp only at h
      refine hmain _ ?_ h
      intro t ht
      have ht2 : t ∈ List.filter (fun t => !sw.contains t) (tokenize text) := by
        by_cases hn : include_numbers = true
        · rw [if_pos hn] at ht
          exact ht
        · rw [if_neg hn] at ht
          exact (List.mem_filter.mp ht).1
      exact (List.mem_filter.mp ht2).1

/-- Witness for claim C8 on a concrete bigram run containing the word `sent`. -/
theorem bigram_keys_never_contain_sent_witness :
    "sent" ∉ keyTokens "blue bike" :=
  bigram_keys_never_contain_sent (fun _ => Except.ok []) "blue bike red" "english"
    true false [("blue bike", 1), ("bike red", 1)] rfl ("blue bike", 1) (by simp)

theorem charsLe_total : ∀ a b : List Char, charsLe a b = true ∨ charsLe b a = true
  | [], _ => Or.inl rfl
  | _ :: _, [] => Or.inr rfl
  | a :: as, b :: bs => by
    rcases lt_trichotomy a b with h | h | h
    · exact Or.inl (by rw [charsLe, if_pos h])
    · subst h
      rcases charsLe_total as bs with h2 | h2
      · exact Or.inl (by rw [charsLe, if_neg (lt_irrefl a), if_neg (lt_irrefl a)]; exact h2)
      · exact Or.inr (by rw [charsLe, if_neg (lt_irrefl a), if_neg (lt_irrefl a)]; exact h2)
    · exact Or.inr (by rw [charsLe, if_pos h])

theorem charsLe_trans : ∀ a b c : List Char,
    charsLe a b = true → charsLe b c = true → charsLe a c = true
  | [], _, _ => fun _ _ => rfl
  | _ :: _, [], _ => fun h _ => absurd h (by rw [charsLe]; simp)
  | _ :: _, _ :: _, [] => fun _ h => absurd h (by rw [charsLe]; simp)
  | a :: as, b :: bs, c :: cs => by
    intro h1 h2
    rw [charsLe] at h1 h2 ⊢
    by_cases hab : a < b
    · by_cases hbc : b < c
      · rw [if_pos (lt_trans hab hbc)]
      · by_cases hcb : c < b
        · rw [if_neg hbc, if_pos hcb] at h2
          exact absurd h2 (by simp)
        · have hbceq : b = c := le_antisymm (not_lt.mp hcb) (not_lt.mp hbc)
          rw [if_pos (hbceq ▸ hab)]
    · by_cases hba : b < a
      · rw [if_neg hab, if_pos hba] at h1
        exact absurd h1 (by simp)
      · have habe : a = b := le_antisymm (not_lt.mp hba) (not_lt.mp hab)
        subst habe
        rw [if_neg (lt_irrefl a), if_neg (lt_irrefl a)] at h1
        by_cases hac : a < c
        · rw [if_pos hac]
        · by_cases hca : c < a
          · rw [if_neg hac, if_pos hca] at h2
            exact absurd h2 (by simp)
          · have hace : a = c := le_antisymm (not_lt.mp hca) (not_lt.mp hac)
            subst hace
            rw [if_neg (lt_irrefl a), if_neg (lt_irrefl a)] at h2 ⊢
            exact charsLe_trans as bs cs h1 h2

theorem charsLe_antisymm : ∀ a b : List Char,
    charsLe a b = true → charsLe b a = true → a = b
  | [], [] => fun _ _ => rfl
  | [], _ :: _ => fun _ h => absurd h (by rw [charsLe]; simp)
  | _ :: _, [] => fun h _ => absurd h (by rw [charsLe]; simp)
  | a :: as, b :: bs => by
    intro h1 h2
    rw [charsLe] at h1 h2
    by_cases hab : a < b
    · rw [if_neg (lt_asymm hab), if_pos hab] at h2
      exact absurd h2 (by simp)
    · by_cases hba : b < a
      · rw [if_neg hab, if_pos hba] at h1
        exact absurd h1 (by simp)
      · have habe : a = b := le_antisymm (not_lt.mp hba) (not_lt.mp hab)
        subst habe
        rw [if_neg (lt_irrefl a), if_neg (lt_irrefl a)] at h1 h2
        rw [charsLe_antisymm as bs h1 h2]

instance : IsTotal String strLe :=
  ⟨fun a b => charsLe_total a.data b.data⟩

instance : IsTrans String strLe :=
  ⟨fun a b c => charsLe_trans a.data b.data c.data⟩

instance : IsAntisymm String strLe :=
  ⟨fun a b h1 h2 => String.ext (charsLe_antisymm a.data b.data h1 h2)⟩

/-- Claim C7: the hapax sample is a pure function of the frequency map's
contents — permuting the map's insertion order (in particular, calling the
analysis twice on the identical map) leaves the sample, and its order,
unchanged, whatever the hash and seeded-shuffle implementations are: the
shuffle seed depends only on the sorted count-1 key list. -/
theorem hapax_sample_deterministic (sha : String → ℕ)
    (shuffle : ℕ → List String → List String) (sample_size : ℕ)
    (freqs1 freqs2 : List (String × ℚ)) (h : freqs1.Perm freqs2) :
    _hapax_legomena sha shuffle freqs1 sample_size
      = _hapax_legomena sha shuffle freqs2 sample_size := by
  have hperm :
      ((freqs1.filter (fun kv => |kv.2 - 1| < 1 / 1000000000)).map (fun kv => kv.1)).Perm
        ((freqs2.filter (fun kv => |kv.2 - 1| < 1 / 1000000000)).map (fun kv => kv.1)) :=
    (h.filter _).map _
  have hsort :
      sortStrings ((freqs1.filter (fun kv => |kv.2 - 1| < 1 / 1000000000)).map
          (fun kv => kv.1))
        = sortStrings ((freqs2.filter (fun kv => |kv.2 - 1| < 1 / 1000000000)).map
          (fun kv => kv.1)) := by
    apply List.eq_of_perm_of_sorted (r := strLe)
    · exact ((List.perm_insertionSort strLe _).trans hperm).trans
        (List.perm_insertionSort strLe _).symm
    · exact List.sorted_insertionSort strLe _
    · exact List.sorted_insertionSort strLe _
  unfold _hapax_legomena
  dsimp only
  rw [hsort]

/-- Witness for claim C7: two insertion orders of the same map give the same
hapax sample. -/
theorem hapax_sample_deterministic_witness :
    _hapax_legomena (fun s => s.length) (fun _ l => l.reverse)
      [("b", 1), ("a", 2), ("c", 1)] 20
      = _hapax_legomena (fun s => s.length) (fun _ l => l.reverse)
      [("c", 1), ("b", 1), ("a", 2)] 20 :=
  hapax_sample_deterministic (fun s => s.length) (fun _ l => l.reverse) 20
    [("b", 1), ("a", 2), ("c", 1)] [("c", 1), ("b", 1), ("a", 2)] (by decide)

theorem safe_percent_mono {a b : ℚ} (total : ℚ) (h : a ≤ b) :
    _safe_percent a total ≤ _safe_percent b total := by
  unfold _safe_percent
  by_cases ht : total ≤ 0
  · rw [if_pos ht, if_pos ht]
  · rw [if_neg ht, if_neg ht]
    have ht' : 0 < total := not_le.mp ht
    gcongr

theorem popTargets_keys (total : ℚ) (uniq idx : ℕ) (cum : ℚ) :
    ∀ ts : List ℕ,
      ((popTargets total uniq idx cum ts).1.map Prod.fst)
        ++ (popTargets total uniq idx cum ts).2 = ts
  | [] => rfl
  | b :: rest => by
    unfold popTargets
    by_cases h : b ≤ idx
    · rw [if_pos h]
      simpa using popTargets_keys total uniq idx cum rest
    · rw [if_neg h]
      simp

theorem popTargets_val (total : ℚ) (uniq idx : ℕ) (cum : ℚ) :
    ∀ (ts : List ℕ) r, r ∈ (popTargets total uniq idx cum ts).1 →
      r.2.1 = _safe_percent cum total
  | [], r, h => absurd h (by simp [popTargets])
  | b :: rest, r, h => by
    unfold popTargets at h
    by_cases hb : b ≤ idx
    · rw [if_pos hb] at h
      dsimp only at h
      rcases List.mem_cons.mp h with rfl | h
      · rfl
      · exact popTargets_val total uniq idx cum rest r h
    · rw [if_neg hb] at h
      exact absurd h (by simp)

theorem pairwise_of_const_vals {recs : List (ℕ × ℚ × ℚ)} {v : ℚ}
    (h : ∀ r ∈ recs, r.2.1 = v) :
    List.Pairwise (fun x y => x.2.1 ≤ y.2.1) recs := by
  induction recs with
  | nil => exact List.Pairwise.nil
  | cons r rest ih =>
    refine List.Pairwise.cons ?_ (ih fun x hx => h x (List.mem_cons_of_mem _ hx))
    intro y hy
    rw [h r (List.mem_cons_self ..), h y (List.mem_cons_of_mem _ hy)]

theorem concLoop_spec (total : ℚ) (uniq : ℕ) :
    ∀ (fs : List ℚ) (ts : List ℕ) (cum : ℚ) (idx : ℕ),
      (∀ f ∈ fs, 0 ≤ f) →
      ((concLoop total uniq fs ts cum idx).1.map Prod.fst)
          ++ (concLoop total uniq fs ts cum idx).2.1 = ts
      ∧ cum ≤ (concLoop total uniq fs ts cum idx).2.2
      ∧ (∀ r ∈ (concLoop total uniq fs ts cum idx).1,
          _safe_percent cum total ≤ r.2.1
          ∧ r.2.1 ≤ _safe_percent (concLoop total uniq fs ts cum idx).2.2 total)
      ∧ List.Pairwise (fun x y => x.2.1 ≤ y.2.1) (concLoop total uniq fs ts cum idx).1
  | [], ts, cum, idx => fun _ => by
    refine ⟨by simp [concLoop], by simp [concLoop], ?_, by simp [concLoop]⟩
    intro r hr
    exact absurd hr (by simp [concLoop])
  | f :: rest, ts, cum, idx => fun hpos => by
    have h0 : (0:ℚ) ≤ f := hpos f (by simp)
    have hrest : ∀ x ∈ rest, (0:ℚ) ≤ x := fun x hx => hpos x (by simp [hx])
    have hcum2 : cum ≤ cum + f := le_add_of_nonneg_right h0
    have hkeys := popTargets_keys total uniq (idx + 1) (cum + f) ts
    have hvals := popTargets_val total uniq (idx + 1) (cum + f) ts
    rcases hpr : (popTargets total uniq (idx + 1) (cum + f) ts).2 with _ | ⟨b2, rest2⟩
    · have heq : concLoop total uniq (f :: rest) ts cum idx
          = ((popTargets total uniq (idx + 1) (cum + f) ts).1, [], cum + f) := by
        conv_lhs => unfold concLoop
        dsimp only
        rw [hpr]
      rw [hpr] at hkeys
      rw [heq]
      refine ⟨by simpa using hkeys, hcum2, ?_, ?_⟩
      · intro r hr
        have hv := hvals r hr
        rw [hv]
        exact ⟨safe_percent_mono total hcum2, le_refl _⟩
      · exact pairwise_of_const_vals hvals
    · have heq : concLoop total uniq (f :: rest) ts cum idx
          = ((popTargets total uniq (idx + 1) (cum + f) ts).1
              ++ (concLoop total uniq rest (b2 :: rest2) (cum + f) (idx + 1)).1,
            (concLoop total uniq rest (b2 :: rest2) (cum + f) (idx + 1)).2.1,
            (concLoop total uniq rest (b2 :: rest2) (cum + f) (idx + 1)).2.2) := by
        conv_lhs => unfold concLoop
        dsimp only
        rw [hpr]
      obtain ⟨ih1, ih2, ih3, ih4⟩ :=
        concLoop_spec total uniq rest (b2 :: rest2) (cum + f) (idx + 1) hrest
      rw [hpr] at hkeys
      rw [heq]
      refine ⟨?_, le_trans hcum2 ih2, ?_, ?_⟩
      · rw [List.map_append, List.append_assoc, ih1, hkeys]
      · intro r hr
        rcases List.mem_append.mp hr with h | h
        · have hv := hvals r h
          rw [hv]
          exact ⟨safe_percent_mono total hcum2, safe_percent_mono total ih2⟩
        · exact ⟨le_trans (safe_percent_mono total hcum2) (ih3 r h).1, (ih3 r h).2⟩
      · rw [List.pairwise_append]
        refine ⟨pairwise_of_const_vals hvals, ih4, ?_⟩
        intro x hx y hy
        rw [hvals x hx]
        exact (ih3 y hy).1

theorem find?_map_keyed {g : ℕ → ℕ × ℚ × ℚ} (hg : ∀ x, (g x).1 = x) :
    ∀ {bs : List ℕ} {b : ℕ}, b ∈ bs →
      (bs.map g).find? (fun r => r.1 == b) = some (g b) := by
  intro bs
  induction bs with
  | nil =>
    intro b hb
    exact absurd hb (by simp)
  | cons x bs ih =>
    intro b hb
    rw [List.map_cons]
    by_cases he : x = b
    · subst he
      exact List.find?_cons_of_pos _ (by simp [hg])
    · rw [List.find?_cons_of_neg _ (by simp [hg, he])]
      rcases List.mem_cons.mp hb with rfl | hmem
      · exact absurd rfl he
      · exact ih hmem

theorem percent_of_total_map {g : ℕ → ℕ × ℚ × ℚ} (hg : ∀ x, (g x).1 = x)
    {bs : List ℕ} {b : ℕ} (hb : b ∈ bs) :
    percent_of_total (bs.map g) b = (g b).2.1 := by
  unfold percent_of_total
  rw [find?_map_keyed hg hb]

theorem find?_val_mono {b1 b2 : ℕ} (hb : b1 < b2) :
    ∀ {recs : List (ℕ × ℚ × ℚ)},
      List.Pairwise (fun x y => x.2.1 ≤ y.2.1) recs →
      List.Pairwise (fun x y : ℕ => x ≤ y) (recs.map Prod.fst) →
      ∀ {r1 r2 : ℕ × ℚ × ℚ},
        recs.find? (fun r => r.1 == b1) = some r1 →
        recs.find? (fun r => r.1 == b2) = some r2 →
        r1.2.1 ≤ r2.2.1 := by
  intro recs
  induction recs with
  | nil =>
    intro _ _ r1 r2 h1 _
    exact absurd h1 (by simp)
  | cons r rest ih =>
    intro hpw hkeys r1 r2 h1 h2
    rw [List.map_cons] at hkeys
    by_cases e1 : r.1 = b1
    · rw [List.find?_cons_of_pos _ (by simp [e1])] at h1
      injection h1 with h1e
      subst h1e
      rw [List.find?_cons_of_neg _ (by simp [e1]; omega)] at h2
      exact List.rel_of_pairwise_cons hpw (List.mem_of_find?_eq_some h2)
    · by_cases e2 : r.1 = b2
      · rw [List.find?_cons_of_neg _ (by simp [e1])] at h1
        have hmem : r1 ∈ rest := List.mem_of_find?_eq_some h1
        have hkey : r1.1 = b1 := by simpa using List.find?_some h1
        have hle : r.1 ≤ r1.1 :=
          List.rel_of_pairwise_cons hkeys (List.mem_map_of_mem _ hmem)
        rw [e2, hkey] at hle
        omega
      · rw [List.find?_cons_of_neg _ (by simp [e1])] at h1
        rw [List.find?_cons_of_neg _ (by simp [e2])] at h2
        exact ih hpw.of_cons hkeys.of_cons h1 h2

theorem find?_key_none {recs : List (ℕ × ℚ × ℚ)} {b : ℕ}
    (h : recs.find? (fun r => r.1 == b) = none) : b ∉ recs.map Prod.fst := by
  intro hmem
  rcases List.mem_map.mp hmem with ⟨r, hr, hkey⟩
  exact (List.find?_eq_none.mp h r hr) (by simp [hkey])

theorem find?_key_some {recs : List (ℕ × ℚ × ℚ)} {b : ℕ} {r : ℕ × ℚ × ℚ}
    (h : recs.find? (fun x => x.1 == b) = some r) : b ∈ recs.map Prod.fst := by
  have hkey : r.1 = b := by simpa using List.find?_some h
  exact hkey ▸ List.mem_map_of_mem _ (List.mem_of_find?_eq_some h)

/-- Claim C6: for a frequency map with non-negative counts and any two
requested bucket sizes `b1 < b2`, the concentration table's
`percent_of_total` is monotone: the share of the total covered by the top
`b1` keys never exceeds the share covered by the top `b2` keys. -/
theorem concentration_percent_of_total_monotone
    (frequencies : List (String × ℚ)) (buckets : List ℕ) (b1 b2 : ℕ)
    (hpos : ∀ kv ∈ frequencies, 0 ≤ kv.2)
    (hb1 : b1 ∈ buckets) (hb2 : b2 ∈ buckets) (hlt : b1 < b2) :
    percent_of_total
        (_vocabulary_concentration frequencies (total_tokens_of frequencies) buckets) b1
      ≤ percent_of_total
        (_vocabulary_concentration frequencies (total_tokens_of frequencies) buckets) b2 := by
  unfold _vocabulary_concentration
  by_cases hdeg :
      (frequencies.isEmpty || decide (total_tokens_of frequencies ≤ 0)) = true
  · rw [if_pos hdeg]
    rw [percent_of_total_map (fun x => rfl) hb1, percent_of_total_map (fun x => rfl) hb2]
  · rw [if_neg hdeg]
    dsimp only
    have hfs : ∀ f ∈ (sortItems frequencies).map (fun kv => kv.2), (0:ℚ) ≤ f := by
      intro f hf
      rcases List.mem_map.mp hf with ⟨kv, hkv, rfl⟩
      exact hpos kv ((List.perm_insertionSort itemLe frequencies).subset hkv)
    obtain ⟨k1, _, k3, k4⟩ :=
      concLoop_spec (total_tokens_of frequencies) frequencies.length
        ((sortItems frequencies).map (fun kv => kv.2))
        (List.insertionSort (fun a b : ℕ => a ≤ b) buckets) 0 0 hfs
    have hSsorted : List.Pairwise (fun a b : ℕ => a ≤ b)
        (List.insertionSort (fun a b : ℕ => a ≤ b) buckets) :=
      List.sorted_insertionSort _ _
    rw [← k1] at hSsorted
    obtain ⟨hleft, _, hcross⟩ := List.pairwise_append.mp hSsorted
    rw [percent_of_total_map ?hgone hb1, percent_of_total_map ?hgtwo hb2]
    case hgone =>
      intro x
      split <;> rfl
    case hgtwo =>
      intro x
      split <;> rfl
    split
    · rename_i r1 hf1
      split
      · rename_i r2 hf2
        have hres := find?_val_mono hlt k4 hleft hf1 hf2
        exact hres
      · rename_i hf2
        have hres := (k3 r1 (List.mem_of_find?_eq_some hf1)).2
        exact hres
    · rename_i hf1
      split
      · rename_i r2 hf2
        have hb1S := (List.perm_insertionSort (fun a b : ℕ => a ≤ b) buckets).mem_iff.mpr hb1
        rw [← k1] at hb1S
        rcases List.mem_append.mp hb1S with h | h
        · exact absurd h (find?_key_none hf1)
        · have hba := hcross b2 (find?_key_some hf2) b1 h
          omega
      · exact le_refl _

/-- Witness for claim C6 on a concrete map and the bucket pair 2 < 5. -/
theorem concentration_percent_of_total_monotone_witness :
    percent_of_total (_vocabulary_concentration [("a", 3), ("b", 2), ("c", 1)]
        (total_tokens_of [("a", 3), ("b", 2), ("c", 1)]) [2, 5, 10]) 2
      ≤ percent_of_total (_vocabulary_concentration [("a", 3), ("b", 2), ("c", 1)]
        (total_tokens_of [("a", 3), ("b", 2), ("c", 1)]) [2, 5, 10]) 5 :=
  concentration_percent_of_total_monotone [("a", 3), ("b", 2), ("c", 1)] [2, 5, 10] 2 5
    (by decide) (by decide) (by decide) (by decide)

end Nubisary
